import Mathlib

/-
Shallow embedding of the pane abstraction layer of the wezterm terminal
multiplexer (mux/src/pane.rs): physical/logical line reconstruction,
coordinate mapping, hyperlink re-splitting, the paste trickle scheduler
and pane id allocation, together with theorems settling the spec claims.
-/

set_option maxRecDepth 20000

namespace Mux

/-- A physical terminal line: styled cells (abstracted to an element type
`α`) plus the "last cell was wrapped" continuation flag, as in
`termwiz::surface::Line` restricted to what `pane.rs` observes. -/
structure Line (α : Type) where
  cells : List α
  wrapped : Bool
  deriving DecidableEq, Repr

/-- `Line::set_last_cell_was_wrapped` -/
def set_last_cell_was_wrapped {α : Type} (l : Line α) (w : Bool) : Line α :=
  ⟨l.cells, w⟩

/-- `Line::append_line`: appends the other line's cells; the wrap flag lives
on the last cell, so the appended line's flag becomes the result's flag. -/
def append_line {α : Type} (a b : Line α) : Line α :=
  ⟨a.cells ++ b.cells, b.wrapped⟩

/-- `LogicalLine` from pane.rs: contiguous physical lines of one wrap chain,
their synthesized concatenation, and the StableRowIndex of the first
physical line (StableRowIndex is a signed integer, modelled as `Int`). -/
structure LogicalLine (α : Type) where
  physical_lines : List (Line α)
  logical : Line α
  first_row : Int
  deriving DecidableEq, Repr

/-! ## Paste trickle scheduler (PASTE_CHUNK_SIZE, Paste, schedule_next_paste,
Pane::trickle_paste)

A paste payload is a UTF-8 string; byte offsets matter because the code
slices at byte indices and `str::is_char_boundary` decides validity.  We
model the payload as a list of encoded characters, each a non-empty run of
units (`List (List γ)`); the byte string is the concatenation. -/

/-- `PASTE_CHUNK_SIZE` from pane.rs. -/
def PASTE_CHUNK_SIZE : Nat := 1024

/-- `str::is_char_boundary i` over the character decomposition `p`:
true iff `i` is the start of a character or the end of the string. -/
def isCharBoundary {γ : Type} : List (List γ) → Nat → Bool
  | _, 0 => true
  | [], _ + 1 => false
  | c :: rest, i + 1 =>
    if i + 1 < c.length then false
    else isCharBoundary rest (i + 1 - c.length)

/-- Rust string slicing `&text[a..b]`: panics (`none`) unless
`a ≤ b ≤ len` and both ends are char boundaries. -/
def sliceStr {γ : Type} (p : List (List γ)) (a b : Nat) : Option (List γ) :=
  if a ≤ b ∧ b ≤ p.flatten.length ∧ isCharBoundary p a = true ∧ isCharBoundary p b = true
  then some ((p.flatten.drop a).take (b - a))
  else none

/-- The `while !is_char_boundary(offset + chunk) && chunk < remain` loop of
`schedule_next_paste`, with `fuel = remain - chunk` making the guard
`chunk < remain` explicit. -/
def adjustChunk {γ : Type} (p : List (List γ)) (offset : Nat) : Nat → Nat → Nat
  | chunk, 0 => chunk
  | chunk, fuel + 1 =>
    if isCharBoundary p (offset + chunk) then chunk
    else adjustChunk p offset (chunk + 1) fuel

/-- Outcome of the asynchronous paste continuation chain: either every chunk
was delivered (`completed`), or the spawned task aborted
(`panicked`: a failed `send_paste(..).unwrap()`, a missing pane in
`mux.get_pane(..).unwrap()`, or an invalid slice). -/
inductive PasteOutcome where
  | completed
  | panicked
  deriving DecidableEq, Repr

/-- One run of the `schedule_next_paste` continuation chain, fuel-indexed so
the recursion is structural (the real loop advances `offset` by at least one
unit per iteration, so `fuel = payload length` is always sufficient; running
out of fuel is unreachable at the call sites below).  `send` is the pane's
`send_paste` returning success/failure; the returned list records every
chunk passed to `send_paste`, in order. -/
def runPasteF {γ : Type} (send : List γ → Bool) (p : List (List γ)) :
    Nat → Nat → List (List γ) × PasteOutcome
  | _, 0 => ([], .panicked)
  | offset, fuel + 1 =>
    let remain := p.flatten.length - offset
    let chunk := adjustChunk p offset (min remain PASTE_CHUNK_SIZE)
      (remain - min remain PASTE_CHUNK_SIZE)
    match sliceStr p offset (offset + chunk) with
    | none => ([], .panicked)
    | some s =>
      if send s then
        if chunk < remain then
          let r := runPasteF send p (offset + chunk) fuel
          (s :: r.1, r.2)
        else ([s], .completed)
      else ([s], .panicked)

/-- `schedule_next_paste` run to completion from a given offset (the whole
fire-and-forget continuation chain). -/
def schedule_next_paste {γ : Type} (send : List γ → Bool) (p : List (List γ))
    (offset : Nat) : List (List γ) × PasteOutcome :=
  runPasteF send p offset p.flatten.length

/-- The synchronous part of `Pane::trickle_paste`: the chunks passed to
`send_paste` before returning, the returned `Result` (`none` = the first
slice panicked, `some b` = `Ok`/`Err`), and the offset of the `Paste` job
handed to `schedule_next_paste`, if any. -/
structure TrickleOutcome (γ : Type) where
  sent : List (List γ)
  result : Option Bool
  job : Option Nat
  deriving DecidableEq, Repr

/-- `Pane::trickle_paste`. -/
def trickle_paste {γ : Type} (send : List γ → Bool) (p : List (List γ)) :
    TrickleOutcome γ :=
  if p.flatten.length ≤ PASTE_CHUNK_SIZE then
    { sent := [p.flatten], result := some (send p.flatten), job := none }
  else
    match sliceStr p 0 PASTE_CHUNK_SIZE with
    | none => { sent := [], result := none, job := none }
    | some s =>
      if send s then
        { sent := [s], result := some true, job := some PASTE_CHUNK_SIZE }
      else
        { sent := [s], result := some false, job := none }

/-! ## Pane id allocation

`static PANE_ID: AtomicUsize = AtomicUsize::new(0);`
`fn alloc_pane_id() -> PaneId { PANE_ID.fetch_add(1, Relaxed) }`

`fetch_add` on `AtomicUsize` returns the previous value and stores the
incremented value, wrapping on overflow; `usize` is 64 bits on the
supported targets.  We model the atomic as explicit counter state (the
single-thread interleaving; `Relaxed` ordering is irrelevant to the value
sequence of a single atomic). -/

/-- `alloc_pane_id` acting on the counter state: returns the allocated id
and the new counter value. -/
def alloc_pane_id (s : Nat) : Nat × Nat :=
  (s, (s + 1) % 2 ^ 64)

/-- Counter state after `n` calls to `alloc_pane_id`, starting from the
static initializer `0`. -/
def paneIdState : Nat → Nat
  | 0 => 0
  | n + 1 => (alloc_pane_id (paneIdState n)).2

/-- The id returned by call number `n` (0-based) to `alloc_pane_id`. -/
def nthPaneId (n : Nat) : Nat :=
  (alloc_pane_id (paneIdState n)).1

/-! ## LogicalLine coordinate mapping -/

/-- Total cell count of a list of physical lines. -/
def sumLens {α : Type} (ls : List (Line α)) : Nat :=
  (ls.map (fun l => l.cells.length)).sum

/-- The loop of `LogicalLine::xy_to_logical_x`: walk the physical lines with
the current physical row `py` (starting at `first_row`) and the running cell
offset `off`; if no physical line matches `y` the source panics (`none`). -/
def xyAux {α : Type} (y : Int) (x : Nat) :
    List (Line α) → Int → Nat → Option Nat
  | [], _, _ => none
  | l :: rest, py, off =>
    if py = y then some (off + x)
    else xyAux y x rest (py + 1) (off + l.cells.length)

/-- `LogicalLine::xy_to_logical_x`. -/
def xy_to_logical_x {α : Type} (ll : LogicalLine α) (x : Nat) (y : Int) :
    Option Nat :=
  xyAux y x ll.physical_lines ll.first_row 0

/-- The loop of `LogicalLine::logical_x_to_physical_coord`: `y` starts at
`first_row`, `idx` accumulates the cell lengths already passed; if `x` is
beyond the total length the source panics (`none`).  (`x - idx` is the
source's `x_off`; on every reachable state `idx ≤ x`, so truncated
subtraction agrees with the source's `usize` subtraction.) -/
def lxAux {α : Type} (x : Nat) :
    List (Line α) → Int → Nat → Option (Int × Nat)
  | [], _, _ => none
  | l :: rest, y, idx =>
    if x - idx < l.cells.length then some (y, x - idx)
    else lxAux x rest (y + 1) (idx + l.cells.length)

/-- `LogicalLine::logical_x_to_physical_coord`. -/
def logical_x_to_physical_coord {α : Type} (ll : LogicalLine α) (x : Nat) :
    Option (Int × Nat) :=
  lxAux x ll.physical_lines ll.first_row 0

/-! ## LogicalLine::apply_hyperlink_rules

`invalidate_implicit_hyperlinks` / `scan_and_create_hyperlinks(rules)` /
`has_hyperlink` live in the external `termwiz` crate; they rewrite cell
attributes without changing the cell count.  They are abstracted as a
cell-rewriting function `scan` and a predicate `hasLink` on the scanned
cells. -/

/-- The re-splitting loop of `apply_hyperlink_rules`: `line.split_off(len)`
leaves the first `len` cells in the assigned physical line and carries the
remainder (the wrap-flag attribute travels with the last cell, i.e. with the
remainder; the assigned line's flag is immediately overwritten by
`set_last_cell_was_wrapped(idx == num_phys - 1)`). -/
def resplit {α : Type} (num : Nat) :
    Nat → Line α → List (Line α) → List (Line α)
  | _, _, [] => []
  | idx, line, ph :: rest =>
    ⟨line.cells.take ph.cells.length, decide (idx = num - 1)⟩ ::
      resplit num (idx + 1) ⟨line.cells.drop ph.cells.length, line.wrapped⟩ rest

/-- `LogicalLine::apply_hyperlink_rules`. -/
def apply_hyperlink_rules {α : Type} (scan : List α → List α)
    (hasLink : List α → Bool) (ll : LogicalLine α) : LogicalLine α :=
  let scanned : Line α := ⟨scan ll.logical.cells, ll.logical.wrapped⟩
  if hasLink scanned.cells then
    { physical_lines := resplit ll.physical_lines.length 0 scanned ll.physical_lines,
      logical := scanned,
      first_row := ll.first_row }
  else
    { ll with logical := scanned }

/-! ## Pane::get_logical_lines over the list-backed pane

The repository's concrete provider (`FakePane` in pane.rs's tests, and the
hypothesis of the round-trip claim) serves a fixed list of physical lines:
`get_lines(range)` returns the requested start index unmodified, together
with the lines of the range that exist (`skip(start).take(len)`).  Ranges
are `start ≤ end` (a Rust `Range` with `start > end` is degenerate). -/

/-- `FakePane::get_lines`. -/
def get_lines {α : Type} (L : List (Line α)) (s e : Nat) :
    Nat × List (Line α) :=
  (s, (L.drop s).take (e - s))

/-- The backward-extension loop of `get_logical_lines` over the list-backed
pane, structurally recursive on `first`.  `none` models the
`back[0]` index-out-of-bounds panic when the probe returns no line. -/
def backLoop {α : Type} (L : List (Line α)) :
    Nat → List (Line α) → Option (Nat × List (Line α))
  | 0, phys => some (0, phys)
  | f + 1, phys =>
    let pr := get_lines L f (f + 1)
    if pr.1 = f + 1 then some (f + 1, phys)
    else
      match pr.2 with
      | [] => none
      | b :: rest =>
        if b.wrapped = false then some (f + 1, phys)
        else backLoop L f ((b :: rest) ++ phys)

/-- The forward-extension loop of `get_logical_lines`, fuel-indexed: each
iteration that continues appends the single fetched line, so any
terminating run takes at most `L.length + 1` iterations; `none` with that
fuel means the source loops forever (the provider keeps answering
`(next_row, [])` for rows past the end of the list). -/
def forwardLoop {α : Type} (L : List (Line α)) (first : Nat) :
    List (Line α) → Nat → Option (List (Line α))
  | _, 0 => none
  | phys, fuel + 1 =>
    match phys.getLast? with
    | none => some phys
    | some last =>
      if last.wrapped = false then some phys
      else
        let nextRow := first + phys.length
        let ar := get_lines L nextRow (nextRow + 1)
        if ar.1 ≠ nextRow then some phys
        else forwardLoop L first (phys ++ ar.2) fuel

/-- The partition loop of `get_logical_lines` (`for (idx, line) in phys`),
with the in-progress accumulator reversed (its head is the source's
`lines.last_mut()`). -/
def partitionRev {α : Type} (first : Int) :
    Nat → List (Line α) → List (LogicalLine α) → List (LogicalLine α)
  | _, [], acc => acc.reverse
  | idx, l :: rest, [] =>
    partitionRev first (idx + 1) rest [⟨[l], l, first + (idx : Int)⟩]
  | idx, l :: rest, prior :: accRest =>
    if prior.logical.wrapped then
      partitionRev first (idx + 1) rest
        (⟨prior.physical_lines ++ [l],
          append_line (set_last_cell_was_wrapped prior.logical false) l,
          prior.first_row⟩ :: accRest)
    else
      partitionRev first (idx + 1) rest
        (⟨[l], l, first + (idx : Int)⟩ :: prior :: accRest)

/-- `Pane::get_logical_lines` over the list-backed pane; `none` models a
panic or divergence inside the extension loops. -/
def get_logical_lines {α : Type} (L : List (Line α)) (s e : Nat) :
    Option (List (LogicalLine α)) :=
  let fp := get_lines L s e
  match backLoop L fp.1 fp.2 with
  | none => none
  | some (first, phys) =>
    match forwardLoop L first phys (L.length + 1) with
    | none => none
    | some phys2 => some (partitionRev (first : Int) 0 phys2 [])

/-- The summary observed by the claims: a logical line's first row and its
concatenated cell text. -/
def summary {α : Type} (ll : LogicalLine α) : Int × List α :=
  (ll.first_row, ll.logical.cells)

/-- Reference description, written from the spec's words (§4.2 step 4 /
§8 round-trip property), for the refinement claim: partition the physical
lines into maximal wrap chains; each group yields the pair of the
StableRowIndex of its first physical line (`row` is the index of the first
line of the remaining list) and the concatenation of its lines' cells. -/
def specUnwrap {α : Type} (row : Int) : List (Line α) → List (Int × List α)
  | [] => []
  | l :: rest =>
    if l.wrapped then
      match specUnwrap (row + 1) rest with
      | [] => [(row, l.cells)]
      | (_, cs) :: gs => (row, l.cells ++ cs) :: gs
    else
      (row, l.cells) :: specUnwrap (row + 1) rest

/-- Merge an open wrap chain into the head group of an already-unwrapped
suffix (proof plumbing for relating `partitionRev` to `specUnwrap`). -/
def mergeHead {α : Type} (pr : Int × List α) :
    List (Int × List α) → List (Int × List α)
  | [] => [pr]
  | (_, cs) :: gs => (pr.1, pr.2 ++ cs) :: gs

/-! ## Pane::get_lines_with_hyperlinks_applied -/

/-- The flattened iteration order of the collection loop: every physical
line of every logical line, tagged with its StableRowIndex
`log_line.first_row + idx`. -/
def flatRows {α : Type} (ls : List (LogicalLine α)) : List (Int × Line α) :=
  ls.flatMap fun ll =>
    ll.physical_lines.enum.map fun pa => (ll.first_row + (pa.1 : Int), pa.2)

/-- The collection loop of `get_lines_with_hyperlinks_applied` over the
flattened rows: keep rows at or after `rf`, and `break 'outer` as soon as
the number of pushed lines equals `n` (the check `phys_lines.len() ==
num_lines` runs after each push, so with `n = 0` it never fires). -/
def keepCount {α : Type} (rf : Int) (n : Nat) :
    List (Int × Line α) → Nat → List (Int × Line α)
  | [], _ => []
  | rl :: rest, cnt =>
    if rf ≤ rl.1 then
      rl :: (if cnt + 1 = n then [] else keepCount rf n rest (cnt + 1))
    else keepCount rf n rest cnt

/-- `Pane::get_lines_with_hyperlinks_applied` over the list-backed pane
(with the termwiz hyperlink scanner abstracted as in
`apply_hyperlink_rules`); `none` propagates a `get_logical_lines`
panic/divergence. -/
def get_lines_with_hyperlinks_applied {α : Type} (scan : List α → List α)
    (hasLink : List α → Bool) (L : List (Line α)) (s e : Nat) :
    Option (Int × List (Line α)) :=
  match get_logical_lines L s e with
  | none => none
  | some logical =>
    let kept :=
      keepCount (s : Int) (e - s)
        (flatRows (logical.map (apply_hyperlink_rules scan hasLink))) 0
    some (match kept.head? with
          | some rl => rl.1
          | none => 0,
          kept.map fun rl => rl.2)

/-- The filtered flattened rows appearing in the declarative description of
the collection loop. -/
def filteredRows {α : Type} (scan : List α → List α)
    (hasLink : List α → Bool) (logical : List (LogicalLine α)) (s : Nat) :
    List (Int × Line α) :=
  (flatRows (logical.map (apply_hyperlink_rules scan hasLink))).filter
    fun rl => decide ((s : Int) ≤ rl.1)

/-! ## One iteration of the backward-extension loop over an arbitrary
provider

For the claim about the loop's stop condition we model a single iteration
of `while first > 0 { .. }` over an arbitrary provider
`P start end = (adjusted_start, lines)`, as a step function on the loop
state `(first, phys)`. -/

/-- Result of one backward-extension iteration. -/
inductive StepResult (α : Type) where
  | stop
  | panicked
  | next (first : Int) (phys : List (Line α))
  deriving DecidableEq

/-- One iteration of the backward-extension loop of `get_logical_lines`
over provider `P`: exit if `first ≤ 0`; probe `first-1..first`; break if
the provider re-anchored the probe to exactly `first`; panic if the probe
returned no line (`back[0]`); break if the probed row's wrap flag is false;
otherwise set `first = prior` and prepend the returned lines. -/
def backStep {α : Type} (P : Int → Int → Int × List (Line α))
    (first : Int) (phys : List (Line α)) : StepResult α :=
  if first ≤ 0 then .stop
  else
    let pr := P (first - 1) first
    if pr.1 = first then .stop
    else
      match pr.2 with
      | [] => .panicked
      | b :: rest =>
        if b.wrapped = false then .stop
        else .next pr.1 ((b :: rest) ++ phys)

/-! ## Concrete inputs used by the example clauses, counterexamples and
witnesses -/

/-- The three physical lines of the spec's worked example. -/
def exampleLines : List (Line Char) :=
  [⟨"Hello there this is ".toList, true⟩,
   ⟨"a long line.".toList, false⟩,
   ⟨"logical line two".toList, false⟩]

/-- A logical line of two physical lines (cells "ab" wrapped, "cd" not). -/
def exLL : LogicalLine Char :=
  ⟨[⟨['a', 'b'], true⟩, ⟨['c', 'd'], false⟩], ⟨['a', 'b', 'c', 'd'], false⟩, 0⟩

/-- Payload of 342 three-unit characters: 1026 units total, and unit 1024
falls inside the 342nd character. -/
def c2P : List (List Nat) := List.replicate 342 [0, 0, 0]

/-- Payload of 1025 one-unit characters. -/
def c7P : List (List Nat) := List.replicate 1025 [0]

/-- Payload of two one-unit characters. -/
def c8P : List (List Nat) := [[0], [1]]

/-- A two-line pane: a wrapped line continuing into an unwrapped one. -/
def c6Lines : List (Line Char) := [⟨['a'], true⟩, ⟨['b'], false⟩]

/-- The single logical line reconstructed from `c6Lines`. -/
def c6Logical : List (LogicalLine Char) :=
  [⟨[⟨['a'], true⟩, ⟨['b'], false⟩], ⟨['a', 'b'], false⟩, 0⟩]

/-- A provider answering every probe with its requested start and one
unwrapped line. -/
def stopProvider : Int → Int → Int × List (Line Char) :=
  fun s _ => (s, [⟨['a'], false⟩])

/-! # Theorems -/

/-! ## Paste trickle scheduler -/

/-- C8: a payload of length at most `PASTE_CHUNK_SIZE` is passed to
`send_paste` whole, in exactly one call, and no `Paste` job or continuation
is created. -/
theorem c8_small_payload :
    ∀ (γ : Type) (send : List γ → Bool) (p : List (List γ)),
      p.flatten.length ≤ PASTE_CHUNK_SIZE →
      (trickle_paste send p).sent = [p.flatten] ∧
        (trickle_paste send p).job = none := by
  intro γ send p h
  unfold trickle_paste
  rw [if_pos h]
  exact ⟨rfl, rfl⟩

/-- Witness for C8 at a concrete two-unit payload. -/
theorem c8_witness :
    (trickle_paste (fun _ => true) c8P).sent = [c8P.flatten] ∧
      (trickle_paste (fun _ => true) c8P).job = none :=
  c8_small_payload Nat (fun _ => true) c8P (by decide)

/-- Index 0 is always a char boundary. -/
theorem isCharBoundary_zero {γ : Type} (p : List (List γ)) :
    isCharBoundary p 0 = true := by
  cases p <;> rfl

/-- Membership in the `dropLast` of a cons. -/
theorem mem_dropLast_cons {γ : Type} {a c : γ} {l : List γ}
    (h : c ∈ (a :: l).dropLast) : c = a ∨ c ∈ l.dropLast := by
  cases l with
  | nil => simp at h
  | cons b t =>
    have he : (a :: b :: t).dropLast = a :: (b :: t).dropLast := rfl
    rw [he] at h
    exact List.mem_cons.mp h

/-- When unit `PASTE_CHUNK_SIZE` is a char boundary, the first slice of
`trickle_paste` succeeds and yields the first `PASTE_CHUNK_SIZE` units. -/
theorem sliceStr_first_chunk {γ : Type} (p : List (List γ))
    (hlen : PASTE_CHUNK_SIZE ≤ p.flatten.length)
    (hb : isCharBoundary p PASTE_CHUNK_SIZE = true) :
    sliceStr p 0 PASTE_CHUNK_SIZE = some (p.flatten.take PASTE_CHUNK_SIZE) := by
  unfold sliceStr
  rw [if_pos ⟨Nat.zero_le _, hlen, isCharBoundary_zero p, hb⟩]
  simp

/-- When unit `PASTE_CHUNK_SIZE` is not a char boundary, the first slice of
`trickle_paste` panics. -/
theorem sliceStr_first_chunk_none {γ : Type} (p : List (List γ))
    (hb : ¬ isCharBoundary p PASTE_CHUNK_SIZE = true) :
    sliceStr p 0 PASTE_CHUNK_SIZE = none := by
  unfold sliceStr
  rw [if_neg]
  intro hcon
  exact hb hcon.2.2.2

/-- C10: for a payload longer than the chunk threshold, the `Result`
returned by `trickle_paste` is exactly the outcome of the first,
synchronously sent chunk; in particular two `send_paste` implementations
that agree on that first chunk produce identical `Result`s no matter how
they behave on the later, asynchronously trickled chunks. -/
theorem c10_result_first_chunk :
    ∀ (γ : Type) (send send2 : List γ → Bool) (p : List (List γ)),
      PASTE_CHUNK_SIZE < p.flatten.length →
      (isCharBoundary p PASTE_CHUNK_SIZE = true →
        (trickle_paste send p).result =
          some (send (p.flatten.take PASTE_CHUNK_SIZE))) ∧
      (send (p.flatten.take PASTE_CHUNK_SIZE) =
          send2 (p.flatten.take PASTE_CHUNK_SIZE) →
        (trickle_paste send p).result = (trickle_paste send2 p).result) := by
  intro γ send send2 p h
  have hres : ∀ (f : List γ → Bool), isCharBoundary p PASTE_CHUNK_SIZE = true →
      (trickle_paste f p).result = some (f (p.flatten.take PASTE_CHUNK_SIZE)) := by
    intro f hb
    unfold trickle_paste
    rw [if_neg (not_le.mpr h)]
    rw [sliceStr_first_chunk p (le_of_lt h) hb]
    cases hf : f (p.flatten.take PASTE_CHUNK_SIZE) <;> simp [hf]
  constructor
  · exact hres send
  · intro hagree
    by_cases hb : isCharBoundary p PASTE_CHUNK_SIZE = true
    · rw [hres send hb, hres send2 hb, hagree]
    · have hnone : ∀ (f : List γ → Bool), (trickle_paste f p).result = none := by
        intro f
        unfold trickle_paste
        rw [if_neg (not_le.mpr h)]
        rw [sliceStr_first_chunk_none p hb]
      rw [hnone send, hnone send2]

/-- Witness for C10 at a concrete 1025-unit payload and two senders that
agree on the first chunk but differ elsewhere. -/
theorem c10_witness :
    (trickle_paste (fun _ => true) c7P).result =
      (trickle_paste (fun s => decide (0 < s.length)) c7P).result :=
  (c10_result_first_chunk Nat (fun _ => true) (fun s => decide (0 < s.length))
    c7P (by decide)).2 (by decide)

/-- C2: evaluation of `trickle_paste` at a payload of 342 three-unit
characters (1026 units): the unchecked first slice `&text[0..1024]` falls
inside the 342nd character and panics (result `none`), before any chunk is
sent — the claimed boundary-safety fails for the first chunk. -/
theorem c2_first_chunk_panics :
    (trickle_paste (fun _ => true) c2P).result = none ∧
      (trickle_paste (fun _ => true) c2P).sent = [] := by
  constructor <;> decide

/-- The boundary-growing loop never shrinks the chunk. -/
theorem le_adjustChunk {γ : Type} (p : List (List γ)) (offset : Nat) :
    ∀ (fuel chunk : Nat), chunk ≤ adjustChunk p offset chunk fuel := by
  intro fuel
  induction fuel with
  | zero => intro chunk; simp [adjustChunk]
  | succ n ih =>
    intro chunk
    by_cases hb : isCharBoundary p (offset + chunk) = true
    · simp [adjustChunk, hb]
    · simp only [adjustChunk, hb, if_false]
      exact le_trans (Nat.le_succ chunk) (ih (chunk + 1))

/-- The boundary-growing loop grows the chunk by at most its fuel
(`remain - chunk`), i.e. never past the remaining payload. -/
theorem adjustChunk_le {γ : Type} (p : List (List γ)) (offset : Nat) :
    ∀ (fuel chunk : Nat), adjustChunk p offset chunk fuel ≤ chunk + fuel := by
  intro fuel
  induction fuel with
  | zero => intro chunk; simp [adjustChunk]
  | succ n ih =>
    intro chunk
    by_cases hb : isCharBoundary p (offset + chunk) = true
    · simp [adjustChunk, hb]
    · simp only [adjustChunk, hb, if_false]
      calc adjustChunk p offset (chunk + 1) n ≤ (chunk + 1) + n := ih (chunk + 1)
        _ = chunk + (n + 1) := by omega

/-- If the end of the growing range is a char boundary, the loop stops at a
char boundary. -/
theorem adjustChunk_boundary {γ : Type} (p : List (List γ)) (offset : Nat) :
    ∀ (fuel chunk : Nat), isCharBoundary p (offset + chunk + fuel) = true →
      isCharBoundary p (offset + adjustChunk p offset chunk fuel) = true := by
  intro fuel
  induction fuel with
  | zero =>
    intro chunk h
    simpa [adjustChunk] using h
  | succ n ih =>
    intro chunk h
    by_cases hb : isCharBoundary p (offset + chunk) = true
    · simp [adjustChunk, hb]
    · simp only [adjustChunk, hb, if_false]
      apply ih (chunk + 1)
      rw [show offset + (chunk + 1) + n = offset + chunk + (n + 1) from by ring]
      exact h

/-- A char boundary query for an index past a whole leading character
recurses past it. -/
theorem isCharBoundary_skip {γ : Type} (c : List γ) (rest : List (List γ))
    (i : Nat) (h : c.length ≤ i) :
    isCharBoundary (c :: rest) i = isCharBoundary rest (i - c.length) := by
  cases i with
  | zero =>
    have hc : c.length = 0 := by omega
    simp [isCharBoundary_zero]
  | succ k =>
    have hnl : ¬ (k + 1 < c.length) := by omega
    simp [isCharBoundary, hnl]

/-- The end of the payload is always a char boundary. -/
theorem isCharBoundary_length {γ : Type} :
    ∀ (p : List (List γ)), isCharBoundary p p.flatten.length = true := by
  intro p
  induction p with
  | nil => rfl
  | cons c rest ih =>
    rw [List.flatten_cons, List.length_append,
      isCharBoundary_skip c rest _ (Nat.le_add_right _ _)]
    simpa using ih

/-- Boundary safety of the continuation chain: started at a char boundary
(with sends succeeding), every slice is valid, the chain completes, and the
chunks passed to `send_paste` concatenate to exactly the un-sent remainder
of the payload.  (Contrast with `c2_first_chunk_panics`: only the *first*,
unchecked slice in `trickle_paste` can panic.) -/
theorem runPasteF_safe {γ : Type} (p : List (List γ)) :
    ∀ (fuel offset : Nat), isCharBoundary p offset = true →
      offset < p.flatten.length → p.flatten.length - offset ≤ fuel →
      (runPasteF (fun _ => true) p offset fuel).1.flatten =
        p.flatten.drop offset ∧
      (runPasteF (fun _ => true) p offset fuel).2 = PasteOutcome.completed := by
  intro fuel
  induction fuel with
  | zero => intro offset hb ho hf; omega
  | succ n ih =>
    intro offset hb ho hf
    have hmin : 1 ≤ min (p.flatten.length - offset) PASTE_CHUNK_SIZE := by
      have : 1 ≤ PASTE_CHUNK_SIZE := by norm_num [PASTE_CHUNK_SIZE]
      omega
    have hC1 : 1 ≤ adjustChunk p offset
        (min (p.flatten.length - offset) PASTE_CHUNK_SIZE)
        (p.flatten.length - offset -
          min (p.flatten.length - offset) PASTE_CHUNK_SIZE) :=
      le_trans hmin (le_adjustChunk p offset _ _)
    have hC2 : adjustChunk p offset
        (min (p.flatten.length - offset) PASTE_CHUNK_SIZE)
        (p.flatten.length - offset -
          min (p.flatten.length - offset) PASTE_CHUNK_SIZE) ≤
        p.flatten.length - offset := by
      have h1 := adjustChunk_le p offset
        (p.flatten.length - offset -
          min (p.flatten.length - offset) PASTE_CHUNK_SIZE)
        (min (p.flatten.length - offset) PASTE_CHUNK_SIZE)
      have h2 : min (p.flatten.length - offset) PASTE_CHUNK_SIZE ≤
          p.flatten.length - offset := Nat.min_le_left _ _
      omega
    have hCb : isCharBoundary p (offset + adjustChunk p offset
        (min (p.flatten.length - offset) PASTE_CHUNK_SIZE)
        (p.flatten.length - offset -
          min (p.flatten.length - offset) PASTE_CHUNK_SIZE)) = true := by
      apply adjustChunk_boundary
      rw [show offset + min (p.flatten.length - offset) PASTE_CHUNK_SIZE +
          (p.flatten.length - offset -
            min (p.flatten.length - offset) PASTE_CHUNK_SIZE) =
          p.flatten.length from by
        have h2 : min (p.flatten.length - offset) PASTE_CHUNK_SIZE ≤
            p.flatten.length - offset := Nat.min_le_left _ _
        omega]
      exact isCharBoundary_length p
    have hslice : sliceStr p offset (offset + adjustChunk p offset
        (min (p.flatten.length - offset) PASTE_CHUNK_SIZE)
        (p.flatten.length - offset -
          min (p.flatten.length - offset) PASTE_CHUNK_SIZE)) =
        some ((p.flatten.drop offset).take (adjustChunk p offset
          (min (p.flatten.length - offset) PASTE_CHUNK_SIZE)
          (p.flatten.length - offset -
            min (p.flatten.length - offset) PASTE_CHUNK_SIZE))) := by
      unfold sliceStr
      rw [if_pos ⟨by omega, by omega, hb, hCb⟩]
      rw [show offset + adjustChunk p offset
          (min (p.flatten.length - offset) PASTE_CHUNK_SIZE)
          (p.flatten.length - offset -
            min (p.flatten.length - offset) PASTE_CHUNK_SIZE) - offset =
          adjustChunk p offset
            (min (p.flatten.length - offset) PASTE_CHUNK_SIZE)
            (p.flatten.length - offset -
              min (p.flatten.length - offset) PASTE_CHUNK_SIZE) from by omega]
    simp only [runPasteF, hslice]
    by_cases hlt : adjustChunk p offset
        (min (p.flatten.length - offset) PASTE_CHUNK_SIZE)
        (p.flatten.length - offset -
          min (p.flatten.length - offset) PASTE_CHUNK_SIZE) <
        p.flatten.length - offset
    · simp only [hlt, if_true, if_pos]
      obtain ⟨ih1, ih2⟩ := ih (offset + adjustChunk p offset
        (min (p.flatten.length - offset) PASTE_CHUNK_SIZE)
        (p.flatten.length - offset -
          min (p.flatten.length - offset) PASTE_CHUNK_SIZE)) hCb
        (by omega) (by omega)
      constructor
      · rw [List.flatten_cons, ih1, ← List.drop_drop]
        exact List.take_append_drop _ _
      · simpa using ih2
    · have hCeq : adjustChunk p offset
          (min (p.flatten.length - offset) PASTE_CHUNK_SIZE)
          (p.flatten.length - offset -
            min (p.flatten.length - offset) PASTE_CHUNK_SIZE) =
          p.flatten.length - offset := by omega
      simp only [hlt, if_false, if_true]
      constructor
      · have hdl : (p.flatten.drop offset).length ≤ p.flatten.length - offset := by
          rw [List.length_drop]
        rw [List.flatten_cons, List.flatten_nil, List.append_nil, hCeq]
        exact List.take_of_length_le hdl
      · trivial

/-- Every chunk the continuation chain hands to `send_paste`, except
possibly the last one, was sent successfully (the chain attempts nothing
after a failed send), and if any attempted chunk's send failed then the
spawned task ends in a panic (`send_paste(..).unwrap()`), not a clean
completion. -/
theorem runPasteF_failure_terminal {γ : Type} (send : List γ → Bool)
    (p : List (List γ)) :
    ∀ (fuel offset : Nat),
      (∀ c ∈ (runPasteF send p offset fuel).1.dropLast, send c = true) ∧
      (∀ c ∈ (runPasteF send p offset fuel).1, send c = false →
        (runPasteF send p offset fuel).2 = PasteOutcome.panicked) := by
  intro fuel
  induction fuel with
  | zero => intro offset; constructor <;> simp [runPasteF]
  | succ n ih =>
    intro offset
    simp only [runPasteF]
    rcases hsl : sliceStr p offset (offset + adjustChunk p offset
        (min (p.flatten.length - offset) PASTE_CHUNK_SIZE)
        (p.flatten.length - offset -
          min (p.flatten.length - offset) PASTE_CHUNK_SIZE)) with _ | s
    · simp
    · by_cases hsend : send s = true
      · simp only [hsend, if_true]
        by_cases hlt : adjustChunk p offset
            (min (p.flatten.length - offset) PASTE_CHUNK_SIZE)
            (p.flatten.length - offset -
              min (p.flatten.length - offset) PASTE_CHUNK_SIZE) <
            p.flatten.length - offset
        · simp only [hlt, if_true]
          refine ⟨?_, ?_⟩
          · intro c hc
            rcases mem_dropLast_cons hc with h | h
            · rw [h]; exact hsend
            · exact (ih _).1 c h
          · intro c hc hcf
            rcases List.mem_cons.mp hc with h | h
            · rw [h] at hcf; rw [hcf] at hsend; cases hsend
            · exact (ih _).2 c h hcf
        · simp only [hlt, if_false]
          refine ⟨?_, ?_⟩
          · intro c hc; simp at hc
          · intro c hc hcf
            simp at hc
            rw [hc] at hcf; rw [hcf] at hsend; cases hsend
      · simp only [Bool.not_eq_true] at hsend
        simp only [hsend, Bool.false_eq_true, if_false]
        refine ⟨?_, ?_⟩
        · intro c hc; simp at hc
        · intro c hc hcf; trivial

/-- C7 (amended): once a chunk send fails, the continuation chain attempts
no further chunk and schedules no further continuation — but the failure
aborts the spawned task (`unwrap` panic) rather than failing cleanly. -/
theorem c7_failure_terminal :
    ∀ (γ : Type) (send : List γ → Bool) (p : List (List γ)) (offset : Nat),
      (∀ c ∈ (schedule_next_paste send p offset).1.dropLast, send c = true) ∧
      (∀ c ∈ (schedule_next_paste send p offset).1, send c = false →
        (schedule_next_paste send p offset).2 = PasteOutcome.panicked) := by
  intro γ send p offset
  exact runPasteF_failure_terminal send p p.flatten.length offset

/-- C7 counterexample: a concrete trickle (1025 one-unit chars, offset past
the first chunk) whose second chunk send fails: the spawned continuation
panics on the `unwrap` instead of failing cleanly. -/
theorem c7_counterexample :
    schedule_next_paste (fun s => decide (s.length = 1024)) c7P 1024 =
      ([[0]], PasteOutcome.panicked) := by
  decide

/-- Witness for the amended C7: at the failing concrete input the chain's
outcome is the panic. -/
theorem c7_witness :
    (schedule_next_paste (fun s => decide (s.length = 1024)) c7P 1024).2 =
      PasteOutcome.panicked :=
  (c7_failure_terminal Nat (fun s => decide (s.length = 1024)) c7P 1024).2
    [0] (by decide) (by decide)

/-! ## Pane id allocation -/

/-- The counter after `n` allocations is `n` modulo `2^64`. -/
theorem paneIdState_eq (n : Nat) : paneIdState n = n % 2 ^ 64 := by
  induction n with
  | zero => rfl
  | succ k ih =>
    show (paneIdState k + 1) % 2 ^ 64 = (k + 1) % 2 ^ 64
    rw [ih]
    exact Nat.mod_add_mod k (2 ^ 64) 1

/-- The id returned by the `n`-th call is `n` modulo `2^64`. -/
theorem nthPaneId_eq (n : Nat) : nthPaneId n = n % 2 ^ 64 := by
  show paneIdState n = n % 2 ^ 64
  exact paneIdState_eq n

/-- C9 counterexample: `fetch_add` on `AtomicUsize` wraps, so call number
`2^64` returns the same PaneId as call number `0` — the sequence is not
strictly increasing over the whole process lifetime. -/
theorem c9_counterexample :
    nthPaneId (2 ^ 64) = nthPaneId 0 ∧ 0 < 2 ^ 64 := by
  constructor
  · rw [nthPaneId_eq, nthPaneId_eq, Nat.mod_self, Nat.zero_mod]
  · exact Nat.two_pow_pos 64

/-- C9 (amended): as long as fewer than `2^64` allocations are made in the
process, successive `alloc_pane_id` calls return strictly increasing
PaneIds — in particular no id is returned twice within that bound. -/
theorem c9_monotone :
    ∀ m n : Nat, m < n → n < 2 ^ 64 → nthPaneId m < nthPaneId n := by
  intro m n hmn hn
  rw [nthPaneId_eq, nthPaneId_eq, Nat.mod_eq_of_lt (lt_trans hmn hn),
    Nat.mod_eq_of_lt hn]
  exact hmn

/-- Witness for the amended C9 at the first two allocations. -/
theorem c9_witness : nthPaneId 0 < nthPaneId 1 :=
  c9_monotone 0 1 (by norm_num) (by norm_num)

/-! ## LogicalLine coordinate mapping -/

/-- Within the covered cell range, `logical_x_to_physical_coord`'s loop
finds a physical coordinate and `xy_to_logical_x`'s loop maps it back,
for any starting row `y0` and already-consumed offset `idx`. -/
theorem lxAux_roundtrip {α : Type} :
    ∀ (ls : List (Line α)) (y0 : Int) (idx x : Nat),
      idx ≤ x → x < idx + sumLens ls →
      ∃ y2 x2, lxAux x ls y0 idx = some (y2, x2) ∧ y0 ≤ y2 ∧
        xyAux y2 x2 ls y0 idx = some x := by
  intro ls
  induction ls with
  | nil =>
    intro y0 idx x hle hlt
    exfalso
    simp [sumLens] at hlt
    omega
  | cons l rest ih =>
    intro y0 idx x hle hlt
    by_cases hx : x - idx < l.cells.length
    · refine ⟨y0, x - idx, ?_, le_refl y0, ?_⟩
      · simp [lxAux, hx]
      · simp [xyAux]
        omega
    · have hx2 : idx + l.cells.length ≤ x := by omega
      have hlt2 : x < (idx + l.cells.length) + sumLens rest := by
        simp [sumLens] at hlt ⊢
        omega
      obtain ⟨y2, x2, h1, h2, h3⟩ :=
        ih (y0 + 1) (idx + l.cells.length) x (by omega) hlt2
      refine ⟨y2, x2, ?_, by omega, ?_⟩
      · simp [lxAux, hx]
        exact h1
      · have hne : ¬ (y0 = y2) := by omega
        simp [xyAux, hne]
        exact h3

/-- Past the covered cell range, `logical_x_to_physical_coord`'s loop runs
off the end of the physical lines and panics. -/
theorem lxAux_none {α : Type} :
    ∀ (ls : List (Line α)) (y0 : Int) (idx x : Nat),
      idx + sumLens ls ≤ x → lxAux x ls y0 idx = none := by
  intro ls
  induction ls with
  | nil => intro y0 idx x h; rfl
  | cons l rest ih =>
    intro y0 idx x h
    simp [sumLens] at h
    have hx : ¬ (x - idx < l.cells.length) := by omega
    simp [lxAux, hx]
    exact ih (y0 + 1) (idx + l.cells.length) x (by simp [sumLens]; omega)

/-- For a row not among the physical rows, `xy_to_logical_x`'s loop never
matches and panics. -/
theorem xyAux_none {α : Type} :
    ∀ (ls : List (Line α)) (y0 : Int) (off x : Nat) (y : Int),
      (∀ i : Nat, i < ls.length → y ≠ y0 + (i : Int)) →
      xyAux y x ls y0 off = none := by
  intro ls
  induction ls with
  | nil => intro y0 off x y _; rfl
  | cons l rest ih =>
    intro y0 off x y h
    have h0 : y ≠ y0 := by
      have := h 0 (by simp)
      simpa using this
    have hne : ¬ (y0 = y) := fun he => h0 he.symm
    simp [xyAux, hne]
    refine ih (y0 + 1) (off + l.cells.length) x y ?_
    intro i hi
    have := h (i + 1) (by simpa using Nat.succ_lt_succ hi)
    intro he
    apply this
    rw [he]
    push_cast
    ring

/-- C3: on a LogicalLine satisfying the documented invariant (the logical
line's cell count is the total of its physical lines' cell counts), for
every cell index `x` in `[0, logical.len())` the mapping
`logical_x_to_physical_coord` returns a coordinate that `xy_to_logical_x`
maps back to `x`; a call with `x` at or beyond the total length, or with a
row `y` that is not one of the LogicalLine's physical rows, panics
(`none`) instead of returning a value. -/
theorem c3_inverse :
    ∀ (α : Type) (ll : LogicalLine α),
      ll.logical.cells.length = sumLens ll.physical_lines →
      (∀ x, x < ll.logical.cells.length →
        ∃ y x2, logical_x_to_physical_coord ll x = some (y, x2) ∧
          xy_to_logical_x ll x2 y = some x) ∧
      (∀ x, ll.logical.cells.length ≤ x →
        logical_x_to_physical_coord ll x = none) ∧
      (∀ (x : Nat) (y : Int),
        (∀ i : Nat, i < ll.physical_lines.length →
          y ≠ ll.first_row + (i : Int)) →
        xy_to_logical_x ll x y = none) := by
  intro α ll hlen
  refine ⟨?_, ?_, ?_⟩
  · intro x hx
    obtain ⟨y2, x2, h1, _, h3⟩ :=
      lxAux_roundtrip ll.physical_lines ll.first_row 0 x (Nat.zero_le x)
        (by rw [hlen] at hx; omega)
    exact ⟨y2, x2, h1, h3⟩
  · intro x hx
    exact lxAux_none ll.physical_lines ll.first_row 0 x
      (by rw [hlen] at hx; omega)
  · intro x y h
    exact xyAux_none ll.physical_lines ll.first_row 0 x y h

/-- Witness for C3: on the concrete two-line LogicalLine, querying row 5
(not among its rows 0 and 1) panics. -/
theorem c3_witness : xy_to_logical_x exLL 0 5 = none :=
  (c3_inverse Char exLL (by decide)).2.2 0 5 (by decide)

/-! ## Backward-extension loop step -/

/-- C5: one iteration of the backward-extension loop, for `first > 0` and a
probe that obeys the Row Addressing contract (a one-row probe below the
current window is answered either at `first - 1` or re-anchored to `first`,
with exactly one line): the loop stops exactly when the probe was
re-anchored to a start other than `first - 1` or the probed row's wrap flag
is false, and otherwise prepends the probed row and decrements `first` by
one. -/
theorem c5_backstep :
    ∀ (α : Type) (P : Int → Int → Int × List (Line α)) (first : Int)
      (phys : List (Line α)) (b : Line α),
      0 < first →
      ((P (first - 1) first).1 = first - 1 ∨ (P (first - 1) first).1 = first) →
      (P (first - 1) first).2 = [b] →
      (backStep P first phys = StepResult.stop ↔
        ((P (first - 1) first).1 ≠ first - 1 ∨ b.wrapped = false)) ∧
      ((P (first - 1) first).1 = first - 1 ∧ b.wrapped = true →
        backStep P first phys = StepResult.next (first - 1) (b :: phys)) := by
  intro α P first phys b hpos hanchor hback
  have hfirst : ¬ (first ≤ 0) := not_le.mpr hpos
  constructor
  · constructor
    · intro hstop
      unfold backStep at hstop
      rw [if_neg hfirst] at hstop
      by_cases hpr : (P (first - 1) first).1 = first
      · left
        rw [hpr]
        omega
      · rw [if_neg hpr, hback] at hstop
        by_cases hw : b.wrapped = false
        · exact Or.inr hw
        · simp [hw] at hstop
    · intro hcond
      unfold backStep
      rw [if_neg hfirst]
      by_cases hpr : (P (first - 1) first).1 = first
      · rw [if_pos hpr]
      · rw [if_neg hpr, hback]
        rcases hcond with hcond | hcond
        · exfalso
          rcases hanchor with ha | ha
          · exact hcond ha
          · exact hpr ha
        · simp [hcond]
  · intro ⟨hprior, hw⟩
    unfold backStep
    rw [if_neg hfirst]
    have hpr : ¬ ((P (first - 1) first).1 = first) := by
      rw [hprior]
      omega
    rw [if_neg hpr, hback]
    simp [hw, hprior]

/-- Witness for C5: a conforming probe whose row has the wrap flag false
makes the loop stop. -/
theorem c5_witness :
    backStep stopProvider 1 ([] : List (Line Char)) = StepResult.stop :=
  (c5_backstep Char stopProvider 1 [] ⟨['a'], false⟩ (by decide)
    (Or.inl (by decide)) (by decide)).1.mpr (Or.inr rfl)

/-! ## LogicalLine::apply_hyperlink_rules -/

/-- C4: evaluating `apply_hyperlink_rules` (with a scanner that finds a
link) on the two-line LogicalLine: the re-split chunks' lengths do match
the original physical line lengths (2 and 2), but the wrap flags come out
`[false, true]` — the code's `idx == num_phys - 1` marks only the *last*
chunk as wrapped, where the claim (and the wrap-chain invariant every
other part of the module relies on) requires `[true, false]`. -/
theorem c4_wrap_flags :
    (apply_hyperlink_rules (fun cs => cs) (fun _ => true) exLL).physical_lines.map
        (fun l => (l.cells.length, l.wrapped)) =
      [(2, false), (2, true)] := by
  decide

/-! ## Round-trip reconstruction -/

/-- Unfolding `specUnwrap` at a wrapped head line. -/
theorem specUnwrap_cons_wrapped {α : Type} (l : Line α) (rest : List (Line α))
    (row : Int) (hw : l.wrapped = true) :
    specUnwrap row (l :: rest) =
      mergeHead (row, l.cells) (specUnwrap (row + 1) rest) := by
  cases hsp : specUnwrap (row + 1) rest with
  | nil => simp [specUnwrap, hw, hsp, mergeHead]
  | cons g gs => cases g; simp [specUnwrap, hw, hsp, mergeHead]

/-- Unfolding `specUnwrap` at an unwrapped head line. -/
theorem specUnwrap_cons_not {α : Type} (l : Line α) (rest : List (Line α))
    (row : Int) (hw : l.wrapped = false) :
    specUnwrap row (l :: rest) = (row, l.cells) :: specUnwrap (row + 1) rest := by
  simp [specUnwrap, hw]

/-- Absorbing two head merges into one. -/
theorem mergeHead_absorb {α : Type} (r q : Int) (pcs lc : List α)
    (X : List (Int × List α)) :
    mergeHead (r, pcs) (mergeHead (q, lc) X) = mergeHead (r, pcs ++ lc) X := by
  cases X with
  | nil => simp [mergeHead]
  | cons g gs => cases g; simp [mergeHead, List.append_assoc]

/-- The partition loop of `get_logical_lines` computes exactly the spec's
unwrapping: joint statement for a closed accumulator head (the previous
logical line does not continue) and an open one (it does). -/
theorem partitionRev_both {α : Type} (phys : List (Line α)) :
    ∀ (first : Int) (idx : Nat),
      (∀ acc : List (LogicalLine α),
        (∀ pr, acc.head? = some pr → pr.logical.wrapped = false) →
        (partitionRev first idx phys acc).map summary =
          acc.reverse.map summary ++ specUnwrap (first + (idx : Int)) phys) ∧
      (∀ (prior : LogicalLine α) (accRest : List (LogicalLine α)),
        prior.logical.wrapped = true →
        (partitionRev first idx phys (prior :: accRest)).map summary =
          accRest.reverse.map summary ++
            mergeHead (summary prior) (specUnwrap (first + (idx : Int)) phys)) := by
  induction phys with
  | nil =>
    intro first idx
    constructor
    · intro acc hacc
      simp [partitionRev, specUnwrap]
    · intro prior accRest hw
      simp [partitionRev, specUnwrap, mergeHead, summary]
  | cons l rest ih =>
    intro first idx
    have hcast : first + ((idx : Int) + 1) = first + (idx : Int) + 1 := by ring
    have hcast2 : ((idx + 1 : Nat) : Int) = (idx : Int) + 1 := by push_cast; ring
    constructor
    · intro acc hacc
      cases acc with
      | nil =>
        by_cases hw : l.wrapped = true
        · have h2 := (ih first (idx + 1)).2 ⟨[l], l, first + (idx : Int)⟩ [] hw
          rw [show partitionRev first idx (l :: rest) [] =
            partitionRev first (idx + 1) rest [⟨[l], l, first + (idx : Int)⟩] from rfl]
          rw [h2, hcast2, hcast, specUnwrap_cons_wrapped l rest _ hw]
          simp [summary]
        · simp only [Bool.not_eq_true] at hw
          have h1 := (ih first (idx + 1)).1 [⟨[l], l, first + (idx : Int)⟩]
            (by intro pr hpr; simp at hpr; subst hpr; exact hw)
          rw [show partitionRev first idx (l :: rest) [] =
            partitionRev first (idx + 1) rest [⟨[l], l, first + (idx : Int)⟩] from rfl]
          rw [h1, hcast2, hcast, specUnwrap_cons_not l rest _ hw]
          simp [summary]
      | cons prior accRest =>
        have hpw : prior.logical.wrapped = false := hacc prior rfl
        rw [show partitionRev first idx (l :: rest) (prior :: accRest) =
          if prior.logical.wrapped then
            partitionRev first (idx + 1) rest
              (⟨prior.physical_lines ++ [l],
                append_line (set_last_cell_was_wrapped prior.logical false) l,
                prior.first_row⟩ :: accRest)
          else
            partitionRev first (idx + 1) rest
              (⟨[l], l, first + (idx : Int)⟩ :: prior :: accRest) from rfl]
        rw [hpw]
        simp only [Bool.false_eq_true, if_false]
        by_cases hw : l.wrapped = true
        · have h2 := (ih first (idx + 1)).2 ⟨[l], l, first + (idx : Int)⟩
            (prior :: accRest) hw
          rw [h2, hcast2, hcast, specUnwrap_cons_wrapped l rest _ hw]
          simp [summary]
        · simp only [Bool.not_eq_true] at hw
          have h1 := (ih first (idx + 1)).1
            (⟨[l], l, first + (idx : Int)⟩ :: prior :: accRest)
            (by intro pr hpr; simp at hpr; subst hpr; exact hw)
          rw [h1, hcast2, hcast, specUnwrap_cons_not l rest _ hw]
          simp [summary]
    · intro prior accRest hpw
      rw [show partitionRev first idx (l :: rest) (prior :: accRest) =
        if prior.logical.wrapped then
          partitionRev first (idx + 1) rest
            (⟨prior.physical_lines ++ [l],
              append_line (set_last_cell_was_wrapped prior.logical false) l,
              prior.first_row⟩ :: accRest)
        else
          partitionRev first (idx + 1) rest
            (⟨[l], l, first + (idx : Int)⟩ :: prior :: accRest) from rfl]
      rw [hpw]
      simp only [if_true]
      by_cases hw : l.wrapped = true
      · have h2 := (ih first (idx + 1)).2
          ⟨prior.physical_lines ++ [l],
            append_line (set_last_cell_was_wrapped prior.logical false) l,
            prior.first_row⟩ accRest (by simpa [append_line] using hw)
        rw [h2, hcast2, hcast, specUnwrap_cons_wrapped l rest _ hw,
          mergeHead_absorb]
        simp [summary, append_line, set_last_cell_was_wrapped]
      · simp only [Bool.not_eq_true] at hw
        have h1 := (ih first (idx + 1)).1
          (⟨prior.physical_lines ++ [l],
            append_line (set_last_cell_was_wrapped prior.logical false) l,
            prior.first_row⟩ :: accRest)
          (by intro pr hpr; simp at hpr; subst hpr; simpa [append_line] using hw)
        rw [h1, hcast2, hcast, specUnwrap_cons_not l rest _ hw]
        simp [summary, append_line, set_last_cell_was_wrapped, mergeHead]

/-- C1: over a pane whose `get_lines` returns the requested range
unmodified, serving a complete capture (the final physical line does not
claim to continue), `get_logical_lines` over the full range returns and its
logical lines carry exactly the spec's unwrapping: per wrap group, the
concatenated cell text and the StableRowIndex of the group's first physical
line; and the spec's worked example evaluates as claimed. -/
theorem c1_roundtrip :
    (∀ (α : Type) (L : List (Line α)),
      (L.getLast?.all fun l => !l.wrapped) = true →
      (get_logical_lines L 0 L.length).map (fun ls => ls.map summary) =
        some (specUnwrap 0 L)) ∧
    (get_logical_lines exampleLines 0 3).map (fun ls => ls.map summary) =
      some [((0 : Int), "Hello there this is a long line.".toList),
            ((2 : Int), "logical line two".toList)] := by
  constructor
  · intro α L hlast
    have hg : get_lines L 0 L.length = (0, L) := by
      simp [get_lines]
    have hfwd : forwardLoop L 0 L (L.length + 1) = some L := by
      cases hL : L.getLast? with
      | none =>
        have hnil : L = [] := by simpa using hL
        subst hnil
        rfl
      | some last =>
        have hlw : last.wrapped = false := by
          rw [hL] at hlast
          simpa using hlast
        simp [forwardLoop, hL, hlw]
    have hpart := (partitionRev_both L 0 0).1 [] (by intro pr hpr; simp at hpr)
    simp only [get_logical_lines, hg, backLoop, hfwd, Nat.cast_zero,
      Option.map_some']
    rw [hpart]
    simp
  · decide

/-- Witness for C1 at the spec's worked example. -/
theorem c1_witness :
    (exampleLines.getLast?.all fun l => !l.wrapped) = true ∧
    (get_logical_lines exampleLines 0 exampleLines.length).map
        (fun ls => ls.map summary) = some (specUnwrap 0 exampleLines) :=
  ⟨by decide, c1_roundtrip.1 Char exampleLines (by decide)⟩

/-! ## get_lines_with_hyperlinks_applied -/

/-- For a positive remaining quota, the collection loop keeps exactly a
prefix of the filtered rows. -/
theorem keepCount_take {α : Type} :
    ∀ (items : List (Int × Line α)) (rf : Int) (n cnt : Nat), cnt < n →
      keepCount rf n items cnt =
        (items.filter fun rl => decide (rf ≤ rl.1)).take (n - cnt) := by
  intro items
  induction items with
  | nil => intro rf n cnt h; simp [keepCount]
  | cons rl rest ih =>
    intro rf n cnt h
    by_cases hk : rf ≤ rl.1
    · by_cases he : cnt + 1 = n
      · have h1 : n - cnt = 1 := by omega
        simp [keepCount, hk, he, List.filter_cons, h1]
      · have h2 : cnt + 1 < n := by omega
        have h3 : n - cnt = (n - (cnt + 1)) + 1 := by omega
        simp [keepCount, hk, he, List.filter_cons, ih rf n (cnt + 1) h2, h3]
    · simp [keepCount, hk, List.filter_cons, ih rf n cnt h]

/-- With a zero quota the after-push length check `len == num_lines` never
fires, so the loop keeps every filtered row. -/
theorem keepCount_zero {α : Type} :
    ∀ (items : List (Int × Line α)) (rf : Int) (cnt : Nat),
      keepCount rf 0 items cnt = items.filter fun rl => decide (rf ≤ rl.1) := by
  intro items
  induction items with
  | nil => intro rf cnt; simp [keepCount]
  | cons rl rest ih =>
    intro rf cnt
    by_cases hk : rf ≤ rl.1
    · have hne : ¬ (cnt + 1 = 0) := by omega
      simp [keepCount, hk, hne, List.filter_cons, ih]
    · simp [keepCount, hk, List.filter_cons, ih]

/-- Taking a positive prefix preserves the head. -/
theorem head?_take_pos {β : Type} (xs : List β) (n : Nat) (h : 0 < n) :
    (xs.take n).head? = xs.head? := by
  cases xs with
  | nil => simp
  | cons x t =>
    cases n with
    | zero => omega
    | succ k => simp [List.take_succ_cons]

/-- C6 (amended): whenever the reconstruction underlying
`get_lines_with_hyperlinks_applied` returns, (a) only physical lines whose
StableRowIndex is at or after the requested start survive the filter,
(b)+(c) for a nonempty requested range the method returns the prefix of
length `range` of those lines together with the StableRowIndex of the
first returned line (0 when none is returned), and (d) when no physical
line satisfies the request it returns `(0, [])` as a non-error outcome.
(For an *empty* requested range the truncation check never fires and all
filtered lines are returned — see the counterexample.) -/
theorem c6_collect :
    ∀ (α : Type) (scan : List α → List α) (hasLink : List α → Bool)
      (L : List (Line α)) (s e : Nat) (logical : List (LogicalLine α)),
      get_logical_lines L s e = some logical → s ≤ e →
      (∀ rl ∈ filteredRows scan hasLink logical s, (s : Int) ≤ rl.1) ∧
      (0 < e - s →
        get_lines_with_hyperlinks_applied scan hasLink L s e =
          some ((match (filteredRows scan hasLink logical s).head? with
                 | some rl => rl.1
                 | none => 0),
                ((filteredRows scan hasLink logical s).take (e - s)).map
                  fun rl => rl.2)) ∧
      (filteredRows scan hasLink logical s = [] →
        get_lines_with_hyperlinks_applied scan hasLink L s e = some (0, [])) := by
  intro α scan hasLink L s e logical hlog hse
  refine ⟨?_, ?_, ?_⟩
  · intro rl hrl
    have hmem := List.of_mem_filter hrl
    simpa using hmem
  · intro hn
    simp only [get_lines_with_hyperlinks_applied, hlog, filteredRows]
    rw [keepCount_take _ _ _ _ (show (0 : Nat) < e - s from hn)]
    rw [show e - s - 0 = e - s from rfl]
    rw [head?_take_pos _ _ hn]
  · intro hf
    simp only [filteredRows] at hf
    simp only [get_lines_with_hyperlinks_applied, hlog]
    have hkept : keepCount ((s : Nat) : Int) (e - s)
        (flatRows (logical.map (apply_hyperlink_rules scan hasLink))) 0 = [] := by
      rcases Nat.eq_zero_or_pos (e - s) with h0 | h0
      · rw [h0, keepCount_zero, hf]
      · rw [keepCount_take _ _ _ _ h0, hf]
        simp
    rw [hkept]
    rfl

/-- C6 counterexample: requesting the *empty* range `1..1` over a pane
whose row 0 wraps into row 1: the after-push check `phys_lines.len() ==
num_lines` never reaches 0, so one physical line is returned even though
the requested range length is 0 — the method does not stop once the count
reaches the requested range length. -/
theorem c6_counterexample :
    get_lines_with_hyperlinks_applied (fun cs => cs) (fun _ => false)
        c6Lines 1 1 =
      some (1, [⟨['b'], false⟩]) := by
  decide

/-- Witness for the amended C6 on the two-line pane over the full range. -/
theorem c6_witness :
    get_lines_with_hyperlinks_applied (fun cs => cs) (fun _ => false)
        c6Lines 0 2 =
      some ((match (filteredRows (fun cs => cs) (fun _ => false)
                c6Logical 0).head? with
             | some rl => rl.1
             | none => 0),
            ((filteredRows (fun cs => cs) (fun _ => false)
                c6Logical 0).take (2 - 0)).map fun rl => rl.2) :=
  (c6_collect Char (fun cs => cs) (fun _ => false) c6Lines 0 2 c6Logical
    (by decide) (by decide)).2.1 (by decide)

end Mux
